import Mathlib

set_option maxRecDepth 10000

/-
  Verification development for the Ethereum bridge module of the nomic
  repository (src/ethereum/mod.rs).  The state machine, its operations and
  the voting-power arithmetic are shallowly embedded below; machine
  integers are modelled as Nat, with an explicit reduction mod 2^64 where
  the source performs a truncating cast, and fallible operations return
  Except.  Failure of a call leaves the module state unchanged (the host
  store provides transactional rollback), which the Except encoding
  captures by producing no successor state on error.  Rust panics
  (division by zero, unwrap) are modelled by the dedicated error value
  Err.faulted.
-/

namespace Nomic

/-- The value u32::MAX as a u64, as used by the source (4294967295). -/
def U32MAX : Nat := 4294967295

/-- The largest u64 value, u64::MAX. -/
def U64MAX : Nat := 18446744073709551615

/-- Two to the 64, the modulus of the truncating u64 cast in the source. -/
def U64MOD : Nat := 18446744073709551616

/-- The VALSET_INTERVAL constant of the source: 60 * 60 * 24 seconds. -/
def VALSET_INTERVAL : Nat := 86400

/-- Modelled from the spec: orga 20-byte address (crate orga, not under
src/), kept opaque as a wrapped number. -/
structure Address where
  val : Nat
deriving DecidableEq

/-- Modelled from the spec: 33-byte compressed secp256k1 public key
(crate bitcoin, not under src/), kept opaque. -/
structure Pubkey where
  val : Nat
deriving DecidableEq

/-- Modelled from the spec: the app Dest destination type (crate::app,
not under src/), kept opaque. -/
structure Dest where
  val : Nat
deriving DecidableEq

/-- Modelled from the spec: orga Coin of Nbtc, a u64 amount of tokens. -/
structure Coin where
  amount : Nat
deriving DecidableEq

/-- Typed errors surfaced by the module, following the spec taxonomy.
Err.faulted stands for a Rust panic (division by zero or unwrap). -/
inductive Err where
  | outOfRange
  | invalidInput
  | insufficientBalance
  | signatureRejected
  | coinOverflow
  | faulted
deriving DecidableEq

/-- Modelled from the spec: Coin.give merges the given coins into the
balance; amounts are u64, so an escrow that cannot hold them fails the
call. -/
def Coin.give (c d : Coin) : Except Err Coin :=
  if c.amount + d.amount < U64MOD then .ok ⟨c.amount + d.amount⟩
  else .error .coinOverflow

/-- Modelled from the spec: Coin.take deducts the requested amount,
failing with an insufficient-balance error on underflow.  Returns the
remaining balance and the taken coins. -/
def Coin.take (c : Coin) (amount : Nat) : Except Err (Coin × Coin) :=
  if amount ≤ c.amount then .ok (⟨c.amount - amount⟩, ⟨amount⟩)
  else .error .insufficientBalance

/-- Modelled from the spec: a signatory is a pubkey plus u64 voting
power (crate::bitcoin::signatory, not under src/). -/
structure Signatory where
  pubkey : Pubkey
  voting_power : Nat
deriving DecidableEq

/-- Modelled from the spec: SignatorySet
(crate::bitcoin::signatory, not under src/): index u32, creation time in
seconds (i64, hence Int), ordered signatories, present and possible
voting power. -/
structure SignatorySet where
  index : Nat
  signatories : List Signatory
  create_time : Int
  present_vp : Nat
  possible_vp : Nat
deriving DecidableEq

/-- SignatorySet::normalize_vp from the source, with its fault made
explicit: `adjust n = (n as u128 * total as u128 / present_vp as u128) as u64`
applied to every signatory and to possible_vp, then `present_vp = total`.
The division panics when present_vp is zero (none); the final `as u64`
cast truncates mod 2^64. -/
def SignatorySet.normalize_vp? (ss : SignatorySet) (total : Nat) :
    Option SignatorySet :=
  if ss.present_vp = 0 then none
  else
    let adjust := fun (n : Nat) => n * total / ss.present_vp % U64MOD
    some { ss with
      signatories :=
        ss.signatories.map (fun s => { s with voting_power := adjust s.voting_power }),
      possible_vp := adjust ss.possible_vp,
      present_vp := total }

/-- Transfer from the source: destination, amount, fee amount. -/
structure Transfer where
  dest : Address
  amount : Nat
  fee_amount : Nat
deriving DecidableEq

/-- ContractCall from the source. -/
structure ContractCall where
  contract : Address
  transfer_amount : Nat
  fee_amount : Nat
  payload : List Nat
  timeout : Nat
deriving DecidableEq

/-- OutMessageArgs from the source: the three outbox message variants. -/
inductive OutMessageArgs where
  | Batch (transfers : List Transfer) (timeout : Nat) (batch_index : Nat)
  | LogicCall (nonce_id : Nat) (call : ContractCall)
  | UpdateValset (valset_index : Nat) (valset : SignatorySet)
deriving DecidableEq

/-- Modelled from the spec: the ABI-encode plus Keccak-256 hashing
pipeline lives in external crates (alloy).  A digest is modelled as its
structured preimage — an injective stand-in, adequate because no claim
depends on concrete digest bytes.  The constructors mirror batch_hash,
ContractCall::hash, checkpoint_hash and the EIP-191 sighash wrapper of
the source, carrying exactly the data the source feeds them. -/
inductive Digest where
  | batchHash (id : List Nat) (batch_index : Nat) (transfers : List Transfer)
      (token_contract : Address) (timeout : Nat)
  | callHash (id : List Nat) (token_contract : Address) (nonce_id : Nat)
      (call : ContractCall)
  | checkpointHash (id : List Nat) (valset : SignatorySet) (valset_index : Nat)
  | ethSignedMessage (inner : Digest)
deriving DecidableEq

/-- sighash from the source: wrap an inner digest in the EIP-191
Ethereum Signed Message envelope. -/
def sighash (message : Digest) : Digest := .ethSignedMessage message

/-- Modelled from the spec: an ECDSA signature, idealized — a signature
value records the pubkey and digest it verifies against, so signature
verification is the check that they match. -/
structure Signature where
  key : Pubkey
  digest : Digest
deriving DecidableEq

/-- Modelled from the spec: one slot of a ThresholdSig — a signatory's
pubkey and voting power, with an optional recorded signature. -/
structure SigSlot where
  pubkey : Pubkey
  voting_power : Nat
  signature : Option Signature
deriving DecidableEq

/-- Modelled from the spec: ThresholdSig
(crate::bitcoin::threshold_sig, not under src/): the message being
signed (none until set_message), the quorum threshold, one slot per
signatory, and the accumulated signed voting power. -/
structure ThresholdSig where
  message : Option Digest
  threshold : Nat
  slots : List SigSlot
  signed_vp : Nat
deriving DecidableEq

/-- Modelled from the spec: ThresholdSig::from_sigset — one empty slot
per signatory of the set, in order, each carrying that signatory's
pubkey and voting power; nothing signed yet. -/
def ThresholdSig.from_sigset (ss : SignatorySet) : ThresholdSig :=
  { message := none
    threshold := 0
    slots := ss.signatories.map (fun s => ⟨s.pubkey, s.voting_power, none⟩)
    signed_vp := 0 }

/-- Modelled from the spec: ThresholdSig::set_message records the hash
to be signed. -/
def ThresholdSig.set_message (ts : ThresholdSig) (h : Digest) : ThresholdSig :=
  { ts with message := some h }

/-- Modelled from the spec: ThresholdSig::sign — find the slot whose
pubkey matches; fail if the pubkey is absent, the slot is already
signed, or the signature does not verify against the message; on
success record the signature and add the slot's voting power. -/
def ThresholdSig.sign (ts : ThresholdSig) (pubkey : Pubkey) (sig : Signature) :
    Except Err ThresholdSig :=
  match ts.slots.findIdx? (fun s => s.pubkey == pubkey) with
  | none => .error .signatureRejected
  | some i =>
    match ts.slots.get? i with
    | none => .error .faulted
    | some slot =>
      if slot.signature.isSome then .error .signatureRejected
      else if ts.message = some sig.digest ∧ sig.key = pubkey then
        .ok { ts with
          slots := ts.slots.set i { slot with signature := some sig }
          signed_vp := ts.signed_vp + slot.voting_power }
      else .error .signatureRejected

/-- OutMessage from the source: signatory-set index, threshold-signature
accumulator, and message payload. -/
structure OutMessage where
  sigset_index : Nat
  sigs : ThresholdSig
  msg : OutMessageArgs
deriving DecidableEq

/-- The Ethereum bridge module state from the source.  Deques are lists
(front at the head), coins is the escrow balance. -/
structure Ethereum where
  id : List Nat
  bridge_contract : Address
  token_contract : Address
  valset_interval : Nat
  message_index : Nat
  batch_index : Nat
  valset_index : Nat
  return_index : Nat
  outbox : List OutMessage
  pending : List (Dest × Coin)
  coins : Coin
  valset : SignatorySet
deriving DecidableEq

/-- bytes32 from the source: right-pad to 32 bytes, failing when the
input is longer than 32. -/
def bytes32 (bytes : List Nat) : Except Err (List Nat) :=
  if bytes.length > 32 then .error .invalidInput
  else .ok (bytes ++ List.replicate (32 - bytes.length) 0)

/-- Ethereum::message_hash from the source: per-variant inner digest,
wrapped with sighash. -/
def Ethereum.message_hash (e : Ethereum) (msg : OutMessageArgs) : Digest :=
  sighash (match msg with
    | .Batch transfers timeout batch_index =>
        .batchHash e.id batch_index transfers e.token_contract timeout
    | .LogicCall index call => .callHash e.id e.token_contract index call
    | .UpdateValset index valset => .checkpointHash e.id valset index)

/-- Ethereum::push_outbox from the source: hash the message with the
current valset's parameters, build a fresh ThresholdSig from the current
valset with threshold u32::MAX * 2 / 3 and the hash set, increment
message_index only when the outbox is non-empty, then append the
OutMessage. -/
def Ethereum.push_outbox (s : Ethereum) (msg : OutMessageArgs) : Ethereum :=
  let hash := s.message_hash msg
  let sigs :=
    ThresholdSig.set_message
      { ThresholdSig.from_sigset s.valset with threshold := U32MAX * 2 / 3 } hash
  let sigset_index := s.valset.index
  let mi := if s.outbox = [] then s.message_index else s.message_index + 1
  { s with
    message_index := mi
    outbox := s.outbox ++ [{ sigset_index := sigset_index, sigs := sigs, msg := msg }] }

/-- Ethereum::new from the source: normalize the valset to u32::MAX
(which panics when its present_vp is zero), pad the id (the unwrap
panics when it is longer than 32 bytes), and initialize all indices to
zero except message_index = 1, with empty queues. -/
def Ethereum.new? (id : List Nat) (bridge_contract token_contract : Address)
    (valset : SignatorySet) : Except Err Ethereum :=
  match valset.normalize_vp? U32MAX with
  | none => .error .faulted
  | some v =>
    match bytes32 id with
    | .error _ => .error .faulted
    | .ok idb =>
      .ok { id := idb
            bridge_contract := bridge_contract
            token_contract := token_contract
            outbox := []
            message_index := 1
            batch_index := 0
            valset_index := 0
            return_index := 0
            coins := ⟨0⟩
            valset_interval := VALSET_INTERVAL
            valset := v
            pending := [] }

/-- Ethereum::update_valset from the source: normalize the new valset
to u32::MAX, increment valset_index, enqueue an UpdateValset message
(signed by the still-current outgoing valset, since push_outbox reads
self.valset), then replace self.valset with the normalized new set. -/
def Ethereum.update_valset (s : Ethereum) (new_valset : SignatorySet) :
    Except Err Ethereum :=
  match new_valset.normalize_vp? U32MAX with
  | none => .error .faulted
  | some nv =>
    let s1 := { s with valset_index := s.valset_index + 1 }
    let s2 := s1.push_outbox (.UpdateValset s1.valset_index nv)
    .ok { s2 with valset := nv }

/-- Ethereum::step from the source: rotate the valset exactly when the
active sigset is old enough and has a new index; otherwise do nothing. -/
def Ethereum.step (s : Ethereum) (active_sigset : SignatorySet) :
    Except Err Ethereum :=
  if active_sigset.create_time - s.valset.create_time ≥ (s.valset_interval : Int)
      ∧ s.valset.index ≠ active_sigset.index then
    s.update_valset active_sigset
  else
    .ok s

/-- Ethereum::transfer from the source: build the single transfer with
zero fee, escrow the coins, increment batch_index, and enqueue a Batch
message with timeout u64::MAX. -/
def Ethereum.transfer (s : Ethereum) (dest : Address) (coins : Coin) :
    Except Err Ethereum :=
  let t : Transfer := { dest := dest, amount := coins.amount, fee_amount := 0 }
  let transfers := [t]
  let timeout := U64MAX
  match s.coins.give coins with
  | .error e => .error e
  | .ok c =>
    let s1 := { s with coins := c, batch_index := s.batch_index + 1 }
    .ok (s1.push_outbox (.Batch transfers timeout s1.batch_index))

/-- Ethereum::call from the source: escrow the coins and enqueue a
LogicCall whose nonce id is the prospective next message index. -/
def Ethereum.call (s : Ethereum) (call : ContractCall) (coins : Coin) :
    Except Err Ethereum :=
  match s.coins.give coins with
  | .error e => .error e
  | .ok c =>
    let s1 := { s with coins := c }
    .ok (s1.push_outbox (.LogicCall (s1.message_index + 1) call))

/-- Ethereum::take_pending from the source: drain the pending queue and
return the drained entries together with the new state. -/
def Ethereum.take_pending (s : Ethereum) : List (Dest × Coin) × Ethereum :=
  (s.pending, { s with pending := [] })

/-- Ethereum::abs_index from the source: the offset of a message index
inside the outbox window, failing with an out-of-range error when the
outbox is empty or the index falls outside
[message_index + 1 - len, message_index]. -/
def Ethereum.abs_index (s : Ethereum) (msg_index : Nat) : Except Err Nat :=
  let start_index := s.message_index + 1 - s.outbox.length
  if s.outbox = [] ∨ msg_index > s.message_index ∨ msg_index < start_index then
    .error .outOfRange
  else
    .ok (msg_index - start_index)

/-- Ethereum::sign from the source: resolve the absolute offset (the
fee exemption of the host is a no-op here), then delegate to the
entry's ThresholdSig, writing the updated accumulator back. -/
def Ethereum.sign (s : Ethereum) (msg_index : Nat) (pubkey : Pubkey)
    (sig : Signature) : Except Err Ethereum :=
  match s.abs_index msg_index with
  | .error e => .error e
  | .ok i =>
    match s.outbox.get? i with
    | none => .error .faulted
    | some m =>
      match m.sigs.sign pubkey sig with
      | .error e => .error e
      | .ok ts => .ok { s with outbox := s.outbox.set i { m with sigs := ts } }

/-- The loop body of Ethereum::relay_return from the source: for each
return entry in order, ignoring its first (entry index) component, take
the amount from the escrow, enqueue the destination and coins into
pending, and increment return_index; the first failing take aborts. -/
def Ethereum.relay_go (s : Ethereum) : List (Nat × Dest × Nat) → Except Err Ethereum
  | [] => .ok s
  | r :: rest =>
    match s.coins.take r.2.2 with
    | .error e => .error e
    | .ok (c, taken) =>
      Ethereum.relay_go
        { s with
          coins := c
          pending := s.pending ++ [(r.2.1, taken)]
          return_index := s.return_index + 1 }
        rest

/-- Ethereum::relay_return from the source, with the whitelisted-signer
precondition satisfied (the cfg-gated signer check and the fee
exemption are host-context concerns outside the module state): fail on
an empty returns list, otherwise run the return loop. -/
def Ethereum.relay_return (s : Ethereum) (returns : List (Nat × Dest × Nat)) :
    Except Err Ethereum :=
  if returns.length = 0 then .error .invalidInput
  else s.relay_go returns

/-- The reachable states of the module: anything produced by the
constructor followed by a finite sequence of successful operations. -/
inductive Reachable : Ethereum → Prop where
  | base : ∀ id bc tc vs s, Ethereum.new? id bc tc vs = .ok s → Reachable s
  | step : ∀ s a s', Reachable s → s.step a = .ok s' → Reachable s'
  | transfer : ∀ s d c s', Reachable s → s.transfer d c = .ok s' → Reachable s'
  | call : ∀ s cc c s', Reachable s → s.call cc c = .ok s' → Reachable s'
  | update_valset : ∀ s v s', Reachable s → s.update_valset v = .ok s' → Reachable s'
  | sign : ∀ s i pk sg s', Reachable s → s.sign i pk sg = .ok s' → Reachable s'
  | relay_return : ∀ s rs s', Reachable s → s.relay_return rs = .ok s' → Reachable s'
  | take_pending : ∀ s, Reachable s → Reachable s.take_pending.2


/-- Total amount requested by a returns list (third components). -/
def returnsTotal (rs : List (Nat × Dest × Nat)) : Nat :=
  (rs.map (fun r => r.2.2)).sum

/-- Concrete pubkey used by the evaluation witnesses. -/
def pk0 : Pubkey := ⟨2⟩

/-- Concrete address used by the evaluation witnesses. -/
def a0 : Address := ⟨0⟩

/-- Concrete destination used by the evaluation witnesses. -/
def d0 : Dest := ⟨3⟩

/-- Concrete EVM destination address used by the evaluation witnesses. -/
def a1 : Address := ⟨7⟩

/-- Concrete constructor valset used by the evaluation witnesses. -/
def vsW : SignatorySet :=
  { index := 0, signatories := [⟨pk0, 10⟩], create_time := 0,
    present_vp := 10, possible_vp := 10 }

/-- The valset vsW after normalization to u32::MAX. -/
def vsWn : SignatorySet :=
  { index := 0, signatories := [⟨pk0, U32MAX⟩], create_time := 0,
    present_vp := U32MAX, possible_vp := U32MAX }

/-- The module state produced by the constructor on the witness inputs. -/
def E0 : Ethereum :=
  { id := List.replicate 32 0
    bridge_contract := a0
    token_contract := a0
    valset_interval := VALSET_INTERVAL
    message_index := 1
    batch_index := 0
    valset_index := 0
    return_index := 0
    outbox := []
    pending := []
    coins := ⟨0⟩
    valset := vsWn }

/-- The module state after one witness transfer of five tokens. -/
def E1 : Ethereum :=
  Ethereum.push_outbox { E0 with coins := ⟨5⟩, batch_index := 1 }
    (.Batch [{ dest := a1, amount := 5, fee_amount := 0 }] U64MAX 1)

theorem E0_new : Ethereum.new? [] a0 a0 vsW = .ok E0 := by rfl

theorem E1_transfer : E0.transfer a1 ⟨5⟩ = .ok E1 := by rfl

theorem reachE0 : Reachable E0 := Reachable.base [] a0 a0 vsW E0 E0_new

theorem reachE1 : Reachable E1 := Reachable.transfer E0 a1 ⟨5⟩ E1 reachE0 E1_transfer

/-- C4: step performs update_valset if and only if the active sigset is
at least valset_interval newer than the current valset and carries a
different index; otherwise it succeeds leaving the state unchanged. -/
theorem C4_step_rotation (s : Ethereum) (a : SignatorySet) :
    ((a.create_time - s.valset.create_time ≥ (s.valset_interval : Int)
        ∧ s.valset.index ≠ a.index) →
      s.step a = s.update_valset a)
    ∧ (¬(a.create_time - s.valset.create_time ≥ (s.valset_interval : Int)
        ∧ s.valset.index ≠ a.index) →
      s.step a = .ok s) := by
  constructor <;> intro h
  · unfold Ethereum.step
    rw [if_pos h]
  · unfold Ethereum.step
    rw [if_neg h]

/-- Concrete rotation-triggering active sigset for the C4 witness. -/
def vsR : SignatorySet :=
  { index := 1, signatories := [⟨pk0, 20⟩], create_time := 172800,
    present_vp := 20, possible_vp := 20 }

theorem C4_step_rotation_witness : E0.step vsR = E0.update_valset vsR :=
  (C4_step_rotation E0 vsR).1 (by constructor <;> decide)

/-- C5: a successful call enqueues a LogicCall whose nonce id is the
prospective next message index, message_index + 1 read before the push;
when the outbox was empty at call time the push leaves message_index
unchanged, so the new message is assigned index message_index while its
nonce id is message_index + 1. -/
theorem C5_call_prospective_nonce (s : Ethereum) (cc : ContractCall) (coins : Coin)
    (s' : Ethereum) (h : s.call cc coins = .ok s') :
    s'.outbox.map OutMessage.msg
      = s.outbox.map OutMessage.msg ++ [.LogicCall (s.message_index + 1) cc]
    ∧ (s.outbox = [] → s'.message_index = s.message_index) := by
  unfold Ethereum.call at h
  cases hg : s.coins.give coins with
  | error e => rw [hg] at h; exact absurd h (by simp)
  | ok c =>
    rw [hg] at h
    simp only [Except.ok.injEq] at h
    subst h
    constructor
    · simp [Ethereum.push_outbox]
    · intro he
      simp [Ethereum.push_outbox, he]

theorem C5_call_prospective_nonce_witness :
    (Ethereum.push_outbox { E0 with coins := ⟨5⟩ }
        (.LogicCall (E0.message_index + 1) ⟨a0, 0, 0, [], 0⟩)).outbox.map OutMessage.msg
      = E0.outbox.map OutMessage.msg ++ [.LogicCall (E0.message_index + 1) ⟨a0, 0, 0, [], 0⟩]
    ∧ (E0.outbox = [] →
        (Ethereum.push_outbox { E0 with coins := ⟨5⟩ }
          (.LogicCall (E0.message_index + 1) ⟨a0, 0, 0, [], 0⟩)).message_index
          = E0.message_index) :=
  C5_call_prospective_nonce E0 ⟨a0, 0, 0, [], 0⟩ ⟨5⟩ _ (by rfl)

/-- C6: a successful transfer escrows exactly the transferred amount,
increments batch_index by one, and appends exactly one Batch message
holding the single zero-fee transfer, stamped with the incremented
batch_index and timeout u64::MAX. -/
theorem C6_transfer_postcondition (s : Ethereum) (d : Address) (coins : Coin)
    (s' : Ethereum) (h : s.transfer d coins = .ok s') :
    s'.coins.amount = s.coins.amount + coins.amount
    ∧ s'.batch_index = s.batch_index + 1
    ∧ s'.outbox.map OutMessage.msg
        = s.outbox.map OutMessage.msg
          ++ [.Batch [{ dest := d, amount := coins.amount, fee_amount := 0 }]
                U64MAX (s.batch_index + 1)] := by
  unfold Ethereum.transfer at h
  cases hg : s.coins.give coins with
  | error e => rw [hg] at h; exact absurd h (by simp)
  | ok c =>
    rw [hg] at h
    simp only [Except.ok.injEq] at h
    subst h
    unfold Coin.give at hg
    by_cases hlt : s.coins.amount + coins.amount < U64MOD
    · rw [if_pos hlt] at hg
      simp only [Except.ok.injEq] at hg
      subst hg
      refine ⟨?_, ?_, ?_⟩
      · simp [Ethereum.push_outbox]
      · simp [Ethereum.push_outbox]
      · simp [Ethereum.push_outbox]
    · rw [if_neg hlt] at hg
      exact absurd hg (by simp)

theorem C6_transfer_postcondition_witness :
    E1.coins.amount = E0.coins.amount + (5 : Nat)
    ∧ E1.batch_index = E0.batch_index + 1
    ∧ E1.outbox.map OutMessage.msg
        = E0.outbox.map OutMessage.msg
          ++ [.Batch [{ dest := a1, amount := 5, fee_amount := 0 }]
                U64MAX (E0.batch_index + 1)] :=
  C6_transfer_postcondition E0 a1 ⟨5⟩ E1 E1_transfer



lemma relay_go_ok (rs : List (Nat × Dest × Nat)) :
    ∀ s : Ethereum, returnsTotal rs ≤ s.coins.amount →
      s.relay_go rs = .ok { s with
        coins := ⟨s.coins.amount - returnsTotal rs⟩
        pending := s.pending ++ rs.map (fun r => (r.2.1, ⟨r.2.2⟩))
        return_index := s.return_index + rs.length } := by
  induction rs with
  | nil =>
    intro s h
    simp [Ethereum.relay_go, returnsTotal]
  | cons a t ih =>
    intro s h
    have hsum : a.2.2 + returnsTotal t = returnsTotal (a :: t) := by
      simp [returnsTotal]
    have ha : a.2.2 ≤ s.coins.amount := by omega
    have hle2 : returnsTotal t ≤ s.coins.amount - a.2.2 := by omega
    unfold Ethereum.relay_go Coin.take
    rw [if_pos ha]
    refine Eq.trans
      (ih { s with
        coins := ⟨s.coins.amount - a.2.2⟩
        pending := s.pending ++ [(a.2.1, ⟨a.2.2⟩)]
        return_index := s.return_index + 1 } hle2) ?_
    simp only [Except.ok.injEq, Ethereum.mk.injEq, true_and, and_true]
    refine ⟨?_, ?_, ?_⟩
    · simp only [List.length_cons]
      omega
    · simp [List.append_assoc]
    · simp only [Coin.mk.injEq]
      omega

lemma relay_go_insufficient (rs : List (Nat × Dest × Nat)) :
    ∀ s : Ethereum, s.coins.amount < returnsTotal rs →
      s.relay_go rs = .error .insufficientBalance := by
  induction rs with
  | nil =>
    intro s h
    simp [returnsTotal] at h
  | cons a t ih =>
    intro s h
    have hsum : a.2.2 + returnsTotal t = returnsTotal (a :: t) := by
      simp [returnsTotal]
    unfold Ethereum.relay_go Coin.take
    by_cases ha : a.2.2 ≤ s.coins.amount
    · rw [if_pos ha]
      exact ih { s with
        coins := ⟨s.coins.amount - a.2.2⟩
        pending := s.pending ++ [(a.2.1, ⟨a.2.2⟩)]
        return_index := s.return_index + 1 }
        (show s.coins.amount - a.2.2 < returnsTotal t by omega)
    · rw [if_neg ha]

/-- C2: relay_return (under the whitelisted-signer precondition) fails
on an empty returns list; otherwise it debits the escrow by each amount
in order (failing with an insufficient-balance error when the escrow
runs short), appends each destination with the debited coins to the
pending queue, and increments return_index once per entry — so a fully
successful call removes exactly the sum of the requested amounts from
the escrow and advances return_index by the length of the list. -/
theorem C2_relay_return (s : Ethereum) (returns : List (Nat × Dest × Nat)) :
    (returns = [] → s.relay_return returns = .error .invalidInput)
    ∧ (returns ≠ [] → returnsTotal returns ≤ s.coins.amount →
        s.relay_return returns = .ok { s with
          coins := ⟨s.coins.amount - returnsTotal returns⟩
          pending := s.pending ++ returns.map (fun r => (r.2.1, ⟨r.2.2⟩))
          return_index := s.return_index + returns.length })
    ∧ (s.coins.amount < returnsTotal returns →
        s.relay_return returns = .error .insufficientBalance) := by
  refine ⟨?_, ?_, ?_⟩
  · intro h
    subst h
    simp [Ethereum.relay_return]
  · intro hne hle
    unfold Ethereum.relay_return
    rw [if_neg (by simpa using hne)]
    exact relay_go_ok returns s hle
  · intro hlt
    have hne : returns ≠ [] := by
      intro h
      subst h
      simp [returnsTotal] at hlt
    unfold Ethereum.relay_return
    rw [if_neg (by simpa using hne)]
    exact relay_go_insufficient returns s hlt

theorem C2_relay_return_witness :
    E1.relay_return [(0, d0, 3)] = .ok { E1 with
      coins := ⟨E1.coins.amount - returnsTotal [(0, d0, 3)]⟩
      pending := E1.pending ++ [(0, d0, 3)].map (fun r => (r.2.1, ⟨r.2.2⟩))
      return_index := E1.return_index + [(0, d0, 3)].length } :=
  (C2_relay_return E1 [(0, d0, 3)]).2.1 (by decide) (by decide)

lemma relay_go_congr (r1 : List (Nat × Dest × Nat)) :
    ∀ (r2 : List (Nat × Dest × Nat)) (s : Ethereum),
      r1.map Prod.snd = r2.map Prod.snd → s.relay_go r1 = s.relay_go r2 := by
  induction r1 with
  | nil =>
    intro r2 s h
    cases r2 with
    | nil => rfl
    | cons b t2 => simp at h
  | cons a t ih =>
    intro r2 s h
    cases r2 with
    | nil => simp at h
    | cons b t2 =>
      simp only [List.map_cons, List.cons.injEq] at h
      obtain ⟨h1, h2⟩ := h
      have h21 : a.2.1 = b.2.1 := by rw [h1]
      have h22 : a.2.2 = b.2.2 := by rw [h1]
      unfold Ethereum.relay_go
      rw [h21, h22]
      cases s.coins.take b.2.2 with
      | error e => rfl
      | ok p =>
        obtain ⟨c, taken⟩ := p
        exact ih t2 _ h2

/-- C10: relay_return never reads the entry_index component of its
returns entries — two calls on the same state whose returns lists agree
except possibly in their first components produce identical results. -/
theorem C10_relay_return_ignores_entry_index (s : Ethereum)
    (r1 r2 : List (Nat × Dest × Nat))
    (h : r1.map Prod.snd = r2.map Prod.snd) :
    s.relay_return r1 = s.relay_return r2 := by
  have hlen : r1.length = r2.length := by
    have := congrArg List.length h
    simpa using this
  unfold Ethereum.relay_return
  rw [hlen]
  by_cases h0 : r2.length = 0
  · rw [if_pos h0, if_pos h0]
  · rw [if_neg h0, if_neg h0]
    exact relay_go_congr r1 r2 s h

theorem C10_relay_return_ignores_entry_index_witness :
    E1.relay_return [(0, d0, 3)] = E1.relay_return [(42, d0, 3)] :=
  C10_relay_return_ignores_entry_index E1 [(0, d0, 3)] [(42, d0, 3)] (by decide)


lemma mem_le_sum {l : List Nat} {a : Nat} (h : a ∈ l) : a ≤ l.sum := by
  induction l with
  | nil => cases h
  | cons b t ih =>
    rcases List.mem_cons.mp h with h1 | h2
    · subst h1
      simp [List.sum_cons]
    · have := ih h2
      simp [List.sum_cons]
      omega

lemma add_div_le (a b k : Nat) : a / k + b / k ≤ (a + b) / k := by
  rcases Nat.eq_zero_or_pos k with hk | hk
  · subst hk
    simp
  · rw [Nat.le_div_iff_mul_le hk, Nat.add_mul]
    exact Nat.add_le_add (Nat.div_mul_le_self a k) (Nat.div_mul_le_self b k)

lemma sum_div_le (l : List Nat) (T P : Nat) :
    (l.map (fun a => a * T / P)).sum ≤ l.sum * T / P := by
  induction l with
  | nil => simp
  | cons a t ih =>
    simp only [List.map_cons, List.sum_cons]
    calc a * T / P + (t.map (fun a => a * T / P)).sum
        ≤ a * T / P + t.sum * T / P := Nat.add_le_add_left ih _
      _ ≤ (a * T + t.sum * T) / P := add_div_le _ _ _
      _ = (a :: t).sum * T / P := by
          rw [List.sum_cons, Nat.add_mul]

lemma div_add_le (x y k : Nat) : (x + y) / k ≤ x / k + y / k + 1 := by
  rcases Nat.eq_zero_or_pos k with hk | hk
  · subst hk
    simp
  · have hx : x < k * (x / k + 1) := by
      calc x = k * (x / k) + x % k := (Nat.div_add_mod x k).symm
        _ < k * (x / k) + k := Nat.add_lt_add_left (Nat.mod_lt _ hk) _
        _ = k * (x / k + 1) := by ring
    have hy : y < k * (y / k + 1) := by
      calc y = k * (y / k) + y % k := (Nat.div_add_mod y k).symm
        _ < k * (y / k) + k := Nat.add_lt_add_left (Nat.mod_lt _ hk) _
        _ = k * (y / k + 1) := by ring
    have hs : x + y < (x / k + y / k + 2) * k := by
      calc x + y < k * (x / k + 1) + k * (y / k + 1) := Nat.add_lt_add hx hy
        _ = (x / k + y / k + 2) * k := by ring
    have := (Nat.div_lt_iff_lt_mul hk).mpr hs
    omega

lemma sum_div_lower (l : List Nat) (T P : Nat) :
    l.sum * T / P ≤ (l.map (fun a => a * T / P)).sum + l.length := by
  induction l with
  | nil => simp
  | cons a t ih =>
    simp only [List.map_cons, List.sum_cons, List.length_cons]
    calc (a + t.sum) * T / P = (a * T + t.sum * T) / P := by rw [Nat.add_mul]
      _ ≤ a * T / P + t.sum * T / P + 1 := div_add_le _ _ _
      _ ≤ a * T / P + ((t.map (fun a => a * T / P)).sum + t.length) + 1 :=
          Nat.add_le_add_right (Nat.add_le_add_left ih _) _
      _ = a * T / P + (t.map (fun a => a * T / P)).sum + (t.length + 1) := by ring

/-- C3 counterexample input: a legal signatory set (the sum of voting
powers equals present_vp and possible_vp exceeds it) on which the
truncating u64 cast in normalize_vp changes the result. -/
def SSce : SignatorySet :=
  { index := 0, signatories := [⟨pk0, 1⟩], create_time := 0,
    present_vp := 1, possible_vp := 2 }

/-- C3 counterexample: normalizing SSce to total u64::MAX stores
possible_vp = 2^64 - 2, the u64 truncation of the mathematical floor
2 * u64::MAX / 1 = 2^65 - 2, so normalize_vp does not set possible_vp
to floor(old * total / present_vp) as the claim states. -/
theorem C3_normalize_vp_counterexample :
    SSce.present_vp ≠ 0
    ∧ SignatorySet.normalize_vp? SSce U64MAX
        = some { index := 0, signatories := [⟨pk0, U64MAX⟩], create_time := 0,
                 present_vp := U64MAX, possible_vp := U64MOD - 2 }
    ∧ U64MOD - 2 ≠ SSce.possible_vp * U64MAX / SSce.present_vp := by
  refine ⟨by decide, by decide, by decide⟩

/-- C3 as amended: with 128-bit intermediates, normalize_vp stores
floor(old * total / present_vp) truncated to 64 bits (reduced mod 2^64 by
the u64 cast) for every signatory and for possible_vp, and sets
present_vp to the total; when the voting powers summed to present_vp
beforehand and the total is a u64 value, no signatory quotient is
truncated, and afterwards present_vp equals the total, the voting powers
sum to at most the total, and the shortfall is at most the number of
signatories. -/
theorem C3_normalize_vp_amended (ss : SignatorySet) (T : Nat)
    (hp : ss.present_vp ≠ 0) (hT : T < U64MOD) :
    SignatorySet.normalize_vp? ss T = some { ss with
        signatories := ss.signatories.map
          (fun s => { s with voting_power := s.voting_power * T / ss.present_vp % U64MOD })
        possible_vp := ss.possible_vp * T / ss.present_vp % U64MOD
        present_vp := T }
    ∧ ((ss.signatories.map Signatory.voting_power).sum = ss.present_vp →
        ∀ ss', SignatorySet.normalize_vp? ss T = some ss' →
          ss'.present_vp = T
          ∧ (ss'.signatories.map Signatory.voting_power).sum ≤ T
          ∧ T - (ss'.signatories.map Signatory.voting_power).sum
              ≤ ss.signatories.length) := by
  have hdef : SignatorySet.normalize_vp? ss T = some { ss with
      signatories := ss.signatories.map
        (fun s => { s with voting_power := s.voting_power * T / ss.present_vp % U64MOD })
      possible_vp := ss.possible_vp * T / ss.present_vp % U64MOD
      present_vp := T } := by
    unfold SignatorySet.normalize_vp?
    rw [if_neg hp]
  refine ⟨hdef, ?_⟩
  intro hsum ss' h'
  rw [hdef] at h'
  simp only [Option.some.injEq] at h'
  subst h'
  have hP : 0 < ss.present_vp := Nat.pos_of_ne_zero hp
  set l := ss.signatories.map Signatory.voting_power with hl
  have hmap : ((ss.signatories.map
      (fun s => { s with voting_power := s.voting_power * T / ss.present_vp % U64MOD })).map
        Signatory.voting_power)
      = l.map (fun a => a * T / ss.present_vp % U64MOD) := by
    rw [hl, List.map_map, List.map_map]
    rfl
  have hnomod : l.map (fun a => a * T / ss.present_vp % U64MOD)
      = l.map (fun a => a * T / ss.present_vp) := by
    refine List.map_congr_left ?_
    intro a ha
    have h1 : a ≤ ss.present_vp := hsum ▸ mem_le_sum ha
    have h2 : a * T / ss.present_vp ≤ ss.present_vp * T / ss.present_vp :=
      Nat.div_le_div_right (Nat.mul_le_mul_right T h1)
    have h3 : ss.present_vp * T / ss.present_vp = T :=
      Nat.mul_div_cancel_left T hP
    exact Nat.mod_eq_of_lt (by omega)
  have hub : (l.map (fun a => a * T / ss.present_vp)).sum ≤ T := by
    have := sum_div_le l T ss.present_vp
    rw [hsum] at this
    rwa [Nat.mul_div_cancel_left T hP] at this
  have hlb : T ≤ (l.map (fun a => a * T / ss.present_vp)).sum + ss.signatories.length := by
    have h1 := sum_div_lower l T ss.present_vp
    rw [hsum, Nat.mul_div_cancel_left T hP] at h1
    have h2 : l.length = ss.signatories.length := by
      rw [hl, List.length_map]
    omega
  refine ⟨rfl, ?_, ?_⟩
  · rw [hmap, hnomod]
    exact hub
  · rw [hmap, hnomod]
    omega

theorem C3_normalize_vp_amended_witness :
    SignatorySet.normalize_vp? vsW U32MAX = some { vsW with
        signatories := vsW.signatories.map
          (fun s => { s with voting_power := s.voting_power * U32MAX / vsW.present_vp % U64MOD })
        possible_vp := vsW.possible_vp * U32MAX / vsW.present_vp % U64MOD
        present_vp := U32MAX }
    ∧ ((vsW.signatories.map Signatory.voting_power).sum = vsW.present_vp →
        ∀ ss', SignatorySet.normalize_vp? vsW U32MAX = some ss' →
          ss'.present_vp = U32MAX
          ∧ (ss'.signatories.map Signatory.voting_power).sum ≤ U32MAX
          ∧ U32MAX - (ss'.signatories.map Signatory.voting_power).sum
              ≤ vsW.signatories.length) :=
  C3_normalize_vp_amended vsW U32MAX (by decide) (by decide)


/-- C7: with the outbox window well-formed (len at most message_index,
which holds in every reachable state by the outbox-window invariant),
sign fails with an out-of-range error — leaving the state unchanged,
since an error produces no successor state — exactly when the outbox is
empty, or msg_index exceeds message_index, or msg_index is below
message_index + 1 - len; otherwise abs_index resolves to the offset
msg_index - (message_index + 1 - len), which is inside the outbox, and
sign delegates to that entry's ThresholdSig. -/
theorem C7_sign_out_of_range (s : Ethereum) (msg_index : Nat) (pk : Pubkey)
    (sg : Signature) (hw : s.outbox.length ≤ s.message_index) :
    ((s.outbox = [] ∨ msg_index > s.message_index
        ∨ msg_index < s.message_index + 1 - s.outbox.length) →
      s.abs_index msg_index = .error .outOfRange
      ∧ s.sign msg_index pk sg = .error .outOfRange)
    ∧ (¬(s.outbox = [] ∨ msg_index > s.message_index
        ∨ msg_index < s.message_index + 1 - s.outbox.length) →
      s.abs_index msg_index
        = .ok (msg_index - (s.message_index + 1 - s.outbox.length))
      ∧ msg_index - (s.message_index + 1 - s.outbox.length) < s.outbox.length
      ∧ ∀ m, s.outbox.get? (msg_index - (s.message_index + 1 - s.outbox.length))
            = some m →
          s.sign msg_index pk sg
            = match m.sigs.sign pk sg with
              | .error e => .error e
              | .ok ts => .ok { s with outbox := s.outbox.set (msg_index - (s.message_index + 1 - s.outbox.length)) { m with sigs := ts } }) := by
  constructor
  · intro h
    have habs : s.abs_index msg_index = .error .outOfRange := by
      unfold Ethereum.abs_index
      rw [if_pos h]
    refine ⟨habs, ?_⟩
    unfold Ethereum.sign
    rw [habs]
  · intro h
    push_neg at h
    obtain ⟨hne, hle, hge⟩ := h
    have hlpos : 0 < s.outbox.length := List.length_pos.mpr hne
    have habs : s.abs_index msg_index
        = .ok (msg_index - (s.message_index + 1 - s.outbox.length)) := by
      unfold Ethereum.abs_index
      rw [if_neg]
      push_neg
      exact ⟨hne, hle, hge⟩
    have hidx : msg_index - (s.message_index + 1 - s.outbox.length)
        < s.outbox.length := by omega
    refine ⟨habs, hidx, ?_⟩
    intro m hm
    unfold Ethereum.sign
    simp only [habs, hm]

theorem C7_sign_out_of_range_witness :
    E1.abs_index 1 = .ok (1 - (E1.message_index + 1 - E1.outbox.length))
    ∧ 1 - (E1.message_index + 1 - E1.outbox.length) < E1.outbox.length :=
  ⟨((C7_sign_out_of_range E1 1 pk0 ⟨pk0, sighash (.batchHash [] 0 [] a0 0)⟩
      (by decide)).2 (by decide)).1,
   ((C7_sign_out_of_range E1 1 pk0 ⟨pk0, sighash (.batchHash [] 0 [] a0 0)⟩
      (by decide)).2 (by decide)).2.1⟩

/-- C8: a successful update_valset increments valset_index by exactly
one, appends exactly one UpdateValset message carrying the normalized
new set under the incremented index, whose sigset_index is the outgoing
valset's index and whose ThresholdSig has one empty slot per signatory
of the outgoing valset (not of the new one), with the outgoing valset's
hashing parameters; only after building that message is self.valset
replaced by the normalized new set. -/
theorem C8_update_valset_outgoing (s : Ethereum) (n nv : SignatorySet)
    (s' : Ethereum) (_hv : 0 < s.valset.present_vp)
    (hn : SignatorySet.normalize_vp? n U32MAX = some nv)
    (h : s.update_valset n = .ok s') :
    s'.valset_index = s.valset_index + 1
    ∧ s'.outbox = s.outbox ++
        [{ sigset_index := s.valset.index
           sigs := { message := some (s.message_hash (.UpdateValset (s.valset_index + 1) nv))
                     threshold := U32MAX * 2 / 3
                     slots := s.valset.signatories.map
                       (fun sg => ⟨sg.pubkey, sg.voting_power, none⟩)
                     signed_vp := 0 }
           msg := .UpdateValset (s.valset_index + 1) nv }]
    ∧ s'.valset = nv := by
  unfold Ethereum.update_valset at h
  rw [hn] at h
  simp only [Except.ok.injEq] at h
  subst h
  refine ⟨?_, ?_, rfl⟩
  · simp [Ethereum.push_outbox]
  · simp only [Ethereum.push_outbox, ThresholdSig.from_sigset, ThresholdSig.set_message]
    rfl

/-- The normalization of the C4/C8 witness rotation valset vsR. -/
def vsRn : SignatorySet :=
  { index := 1, signatories := [⟨pk0, U32MAX⟩], create_time := 172800,
    present_vp := U32MAX, possible_vp := U32MAX }

/-- The outbox push performed by the witness valset rotation on E0. -/
def E2pre : Ethereum :=
  Ethereum.push_outbox { E0 with valset_index := 1 } (.UpdateValset 1 vsRn)

/-- The state after the witness valset rotation on E0. -/
def E2 : Ethereum :=
  { E2pre with valset := vsRn }

theorem E2_update : E0.update_valset vsR = .ok E2 := by rfl

theorem C8_update_valset_outgoing_witness :
    E2.valset_index = E0.valset_index + 1
    ∧ E2.outbox = E0.outbox ++
        [{ sigset_index := E0.valset.index
           sigs := { message := some (E0.message_hash (.UpdateValset (E0.valset_index + 1) vsRn))
                     threshold := U32MAX * 2 / 3
                     slots := E0.valset.signatories.map
                       (fun sg => ⟨sg.pubkey, sg.voting_power, none⟩)
                     signed_vp := 0 }
           msg := .UpdateValset (E0.valset_index + 1) vsRn }]
    ∧ E2.valset = vsRn :=
  C8_update_valset_outgoing E0 vsR vsRn E2 (by decide) (by decide) E2_update

/-- C9: normalize_vp divides by present_vp with no zero guard, so it
faults exactly when present_vp is zero; the constructor faults on a
zero-present_vp valset and succeeds whenever present_vp is nonzero and
the id fits in 32 bytes, and step never faults when the supplied active
sigset has nonzero present_vp. -/
theorem C9_normalize_vp_zero_guard :
    (∀ (ss : SignatorySet) (t : Nat),
      (ss.normalize_vp? t).isSome ↔ ss.present_vp ≠ 0)
    ∧ (∀ (id : List Nat) (bc tc : Address) (vs : SignatorySet),
        vs.present_vp = 0 → Ethereum.new? id bc tc vs = .error .faulted)
    ∧ (∀ (id : List Nat) (bc tc : Address) (vs : SignatorySet),
        vs.present_vp ≠ 0 → id.length ≤ 32 →
        ∃ e, Ethereum.new? id bc tc vs = .ok e)
    ∧ (∀ (s : Ethereum) (a : SignatorySet), a.present_vp ≠ 0 →
        ∃ s', s.step a = .ok s') := by
  have hnorm : ∀ (ss : SignatorySet) (t : Nat),
      (ss.normalize_vp? t).isSome ↔ ss.present_vp ≠ 0 := by
    intro ss t
    unfold SignatorySet.normalize_vp?
    by_cases h : ss.present_vp = 0
    · rw [if_pos h]
      simp [h]
    · rw [if_neg h]
      simp [h]
  refine ⟨hnorm, ?_, ?_, ?_⟩
  · intro id bc tc vs h
    unfold Ethereum.new?
    have : vs.normalize_vp? U32MAX = none := by
      rcases ho : vs.normalize_vp? U32MAX with _ | v
      · rfl
      · have := (hnorm vs U32MAX).mp (by rw [ho]; rfl)
        exact absurd h this
    rw [this]
  · intro id bc tc vs h hlen
    unfold Ethereum.new?
    rcases ho : vs.normalize_vp? U32MAX with _ | v
    · have := (hnorm vs U32MAX).mpr h
      rw [ho] at this
      cases this
    · unfold bytes32
      rw [if_neg (by omega)]
      exact ⟨_, rfl⟩
  · intro s a h
    unfold Ethereum.step
    by_cases hc : a.create_time - s.valset.create_time ≥ (s.valset_interval : Int)
        ∧ s.valset.index ≠ a.index
    · rw [if_pos hc]
      unfold Ethereum.update_valset
      rcases ho : a.normalize_vp? U32MAX with _ | v
      · have := (hnorm a U32MAX).mpr h
        rw [ho] at this
        cases this
      · exact ⟨_, rfl⟩
    · rw [if_neg hc]
      exact ⟨_, rfl⟩

theorem C9_normalize_vp_zero_guard_witness :
    ∃ s', E0.step vsR = .ok s' :=
  C9_normalize_vp_zero_guard.2.2.2 E0 vsR (by decide)


lemma push_shape (s : Ethereum) (m : OutMessageArgs) :
    (s.push_outbox m).message_index
      = (if s.outbox = [] then s.message_index else s.message_index + 1)
    ∧ (s.push_outbox m).outbox.length = s.outbox.length + 1 := by
  constructor
  · simp [Ethereum.push_outbox]
  · simp [Ethereum.push_outbox]

lemma new_shape {i : List Nat} {b t : Address} {v : SignatorySet} {s : Ethereum}
    (h : Ethereum.new? i b t v = .ok s) :
    s.message_index = 1 ∧ s.outbox = [] := by
  unfold Ethereum.new? at h
  cases hv : v.normalize_vp? U32MAX with
  | none => rw [hv] at h; cases h
  | some nv =>
    rw [hv] at h
    cases hb : bytes32 i with
    | error e => rw [hb] at h; cases h
    | ok idb =>
      rw [hb] at h
      simp only [Except.ok.injEq] at h
      subst h
      exact ⟨rfl, rfl⟩

lemma transfer_window {s : Ethereum} {d : Address} {c : Coin} {s' : Ethereum}
    (h : s.transfer d c = .ok s') :
    s'.message_index
      = (if s.outbox = [] then s.message_index else s.message_index + 1)
    ∧ s'.outbox.length = s.outbox.length + 1 := by
  unfold Ethereum.transfer at h
  cases hg : s.coins.give c with
  | error e => rw [hg] at h; cases h
  | ok cc =>
    rw [hg] at h
    simp only [Except.ok.injEq] at h
    subst h
    exact push_shape _ _

lemma call_window {s : Ethereum} {cc : ContractCall} {c : Coin} {s' : Ethereum}
    (h : s.call cc c = .ok s') :
    s'.message_index
      = (if s.outbox = [] then s.message_index else s.message_index + 1)
    ∧ s'.outbox.length = s.outbox.length + 1 := by
  unfold Ethereum.call at h
  cases hg : s.coins.give c with
  | error e => rw [hg] at h; cases h
  | ok c2 =>
    rw [hg] at h
    simp only [Except.ok.injEq] at h
    subst h
    exact push_shape _ _

lemma update_valset_window {s : Ethereum} {n : SignatorySet} {s' : Ethereum}
    (h : s.update_valset n = .ok s') :
    s'.message_index
      = (if s.outbox = [] then s.message_index else s.message_index + 1)
    ∧ s'.outbox.length = s.outbox.length + 1 := by
  unfold Ethereum.update_valset at h
  cases hn : n.normalize_vp? U32MAX with
  | none => rw [hn] at h; cases h
  | some nv =>
    rw [hn] at h
    simp only [Except.ok.injEq] at h
    subst h
    exact push_shape _ _

lemma sign_window {s : Ethereum} {i : Nat} {pk : Pubkey} {sg : Signature}
    {s' : Ethereum} (h : s.sign i pk sg = .ok s') :
    s'.message_index = s.message_index ∧ s'.outbox.length = s.outbox.length := by
  unfold Ethereum.sign at h
  cases ha : s.abs_index i with
  | error e => rw [ha] at h; cases h
  | ok k =>
    simp only [ha] at h
    cases hg : s.outbox.get? k with
    | none => simp only [hg] at h; cases h
    | some m =>
      simp only [hg] at h
      cases ht : m.sigs.sign pk sg with
      | error e => simp only [ht] at h; cases h
      | ok ts =>
        simp only [ht, Except.ok.injEq] at h
        subst h
        exact ⟨rfl, by simp⟩

lemma relay_go_window (rs : List (Nat × Dest × Nat)) :
    ∀ {s s' : Ethereum}, s.relay_go rs = .ok s' →
      s'.message_index = s.message_index ∧ s'.outbox = s.outbox := by
  induction rs with
  | nil =>
    intro s s' h
    unfold Ethereum.relay_go at h
    simp only [Except.ok.injEq] at h
    subst h
    exact ⟨rfl, rfl⟩
  | cons a t ih =>
    intro s s' h
    unfold Ethereum.relay_go at h
    cases ht : s.coins.take a.2.2 with
    | error e => rw [ht] at h; cases h
    | ok p =>
      obtain ⟨c, taken⟩ := p
      simp only [ht] at h
      have h2 := ih h
      exact h2

lemma relay_return_window {s : Ethereum} {rs : List (Nat × Dest × Nat)}
    {s' : Ethereum} (h : s.relay_return rs = .ok s') :
    s'.message_index = s.message_index ∧ s'.outbox = s.outbox := by
  unfold Ethereum.relay_return at h
  by_cases h0 : rs.length = 0
  · rw [if_pos h0] at h; cases h
  · rw [if_neg h0] at h
    exact relay_go_window rs h

lemma window_step {s s' : Ethereum}
    (ih : s.message_index = max 1 s.outbox.length)
    (h1 : s'.message_index
      = (if s.outbox = [] then s.message_index else s.message_index + 1))
    (h2 : s'.outbox.length = s.outbox.length + 1) :
    s'.message_index = max 1 s'.outbox.length := by
  by_cases he : s.outbox = []
  · have hlen : s.outbox.length = 0 := by rw [he]; rfl
    rw [h1, if_pos he, h2, hlen, ih, hlen]
    decide
  · have hl : 1 ≤ s.outbox.length := List.length_pos.mpr he
    rw [h1, if_neg he, h2, ih, Nat.max_eq_right hl,
      Nat.max_eq_right (by omega : 1 ≤ s.outbox.length + 1)]

lemma reachable_msgInv (s : Ethereum) (h : Reachable s) :
    s.message_index = max 1 s.outbox.length := by
  induction h with
  | base id bc tc vs s h0 =>
    obtain ⟨h1, h2⟩ := new_shape h0
    rw [h1, h2]
    decide
  | step s a s' hr hop ih =>
    unfold Ethereum.step at hop
    by_cases hc : a.create_time - s.valset.create_time ≥ (s.valset_interval : Int)
        ∧ s.valset.index ≠ a.index
    · rw [if_pos hc] at hop
      obtain ⟨h1, h2⟩ := update_valset_window hop
      exact window_step ih h1 h2
    · rw [if_neg hc] at hop
      simp only [Except.ok.injEq] at hop
      subst hop
      exact ih
  | transfer s d c s' hr hop ih =>
    obtain ⟨h1, h2⟩ := transfer_window hop
    exact window_step ih h1 h2
  | call s cc c s' hr hop ih =>
    obtain ⟨h1, h2⟩ := call_window hop
    exact window_step ih h1 h2
  | update_valset s v s' hr hop ih =>
    obtain ⟨h1, h2⟩ := update_valset_window hop
    exact window_step ih h1 h2
  | sign s i pk sg s' hr hop ih =>
    obtain ⟨h1, h2⟩ := sign_window hop
    rw [h1, h2, ih]
  | relay_return s rs s' hr hop ih =>
    obtain ⟨h1, h2⟩ := relay_return_window hop
    rw [h1, h2, ih]
  | take_pending s hr ih =>
    exact ih

/-- C1: in every reachable state the outbox occupies the contiguous
message-index window [message_index + 1 - len, message_index]: when the
outbox is non-empty the window starts at 1 and ends at message_index =
len, and an index resolves through abs_index to an in-bounds offset
exactly when it lies in the window; when the outbox is empty (no push
has ever happened, since the outbox never shrinks) message_index is
still its initial value 1, so the first push leaves message_index = 1
and every push onto a non-empty outbox increments it by exactly one. -/
theorem C1_outbox_window (s : Ethereum) (h : Reachable s) :
    (s.outbox = [] → s.message_index = 1)
    ∧ (s.outbox ≠ [] →
        s.message_index + 1 - s.outbox.length = 1
        ∧ s.message_index = s.outbox.length
        ∧ ∀ j, (1 ≤ j ∧ j ≤ s.message_index) ↔
            ∃ k, s.abs_index j = .ok k ∧ k < s.outbox.length)
    ∧ ∀ m, (s.outbox = [] → (s.push_outbox m).message_index = 1)
        ∧ (s.outbox ≠ [] → (s.push_outbox m).message_index = s.message_index + 1) := by
  have hinv := reachable_msgInv s h
  refine ⟨?_, ?_, ?_⟩
  · intro he
    rw [he] at hinv
    simpa using hinv
  · intro hne
    have hl : 1 ≤ s.outbox.length := List.length_pos.mpr hne
    have hmi : s.message_index = s.outbox.length := by
      rw [hinv, Nat.max_eq_right hl]
    refine ⟨by omega, hmi, ?_⟩
    intro j
    constructor
    · rintro ⟨hj1, hj2⟩
      refine ⟨j - (s.message_index + 1 - s.outbox.length), ?_, by omega⟩
      unfold Ethereum.abs_index
      rw [if_neg]
      push_neg
      exact ⟨hne, hj2, by omega⟩
    · rintro ⟨k, habs, hk⟩
      unfold Ethereum.abs_index at habs
      by_cases hc : s.outbox = [] ∨ j > s.message_index
          ∨ j < s.message_index + 1 - s.outbox.length
      · rw [if_pos hc] at habs
        cases habs
      · push_neg at hc
        obtain ⟨h1, h2, h3⟩ := hc
        exact ⟨by omega, h2⟩
  · intro m
    constructor
    · intro he
      have h0 : (s.push_outbox m).message_index = s.message_index := by
        rw [(push_shape s m).1, if_pos he]
      rw [h0]
      rw [he] at hinv
      simpa using hinv
    · intro hne
      rw [(push_shape s m).1, if_neg hne]

theorem C1_outbox_window_witness :
    E1.message_index + 1 - E1.outbox.length = 1
    ∧ E1.message_index = E1.outbox.length :=
  ⟨((C1_outbox_window E1 reachE1).2.1 (by decide)).1,
   ((C1_outbox_window E1 reachE1).2.1 (by decide)).2.1⟩

end Nomic
